import Mathlib

/-!
Verification of `utils/model_performance_analysis.py`, the notebook-support
module that evaluates a binary toxicity classifier (label 0 = non-toxic,
label 1 = toxic) across languages.

The embedding below mirrors the Python source:

* probabilities and thresholds are exact rationals (`ℚ`), labels are integers;
* a per-language dataframe is a list of `(text, label)` rows;
* the trained network (torch model + softmax) is external to the module and is
  abstracted as an oracle `modelProbs : List String → List (ℚ × ℚ)` returning
  one probability pair per row of a batch;
* functions whose Python bodies end in plotting are embedded up to the point
  where they stop computing: the assertion structure is kept as
  `Except String Unit` (`.error` = `AssertionError`, `.ok` = control reaches
  the rendering code);
* the calls into scikit-learn (`precision_recall_curve`, `auc`) are modelled
  from that library's documented behaviour, since the library is outside the
  repository; the modelling notes are on the corresponding definitions.
-/

namespace ToxicityAnalysis

/-- Per-language record produced by `predict_with_probabilities`:
`{'true_labels': list[int], 'pred_labels': list[int], 'pred_probs': list[(p0, p1)]}`. -/
structure LangResult where
  true_labels : List ℤ
  pred_labels : List ℤ
  pred_probs : List (ℚ × ℚ)
deriving DecidableEq

/-- Row-level decision rule `np.where(probabilities[:, 1] > conf_th, 1, 0)`
from `predict_with_probabilities`: predict toxic (1) exactly when the class-1
probability strictly exceeds the confidence threshold. -/
def predLabel (conf_th : ℚ) (prob : ℚ × ℚ) : ℤ :=
  if conf_th < prob.2 then 1 else 0

/-- Batching performed by `DataLoader(texts, batch_size=batch_size,
shuffle=False)`: the row sequence is split into consecutive chunks of size
`batch_size` (the final chunk may be shorter); order is preserved.
`batch_size = 0` is rejected by torch, so the value for `n = 0` is immaterial
and chosen to be `[]`. -/
def chunksGo (n : ℕ) : ℕ → List α → List (List α)
  | _, [] => []
  | 0, _ :: _ => []
  | fuel + 1, x :: xs => (x :: xs).take n :: chunksGo n fuel ((x :: xs).drop n)

def chunks (n : ℕ) (l : List α) : List (List α) :=
  if n = 0 then [] else chunksGo n l.length l

theorem chunksGo_flatten {α : Type _} (n : ℕ) (hn : 0 < n) :
    ∀ (fuel : ℕ) (l : List α), l.length ≤ fuel → (chunksGo n fuel l).flatten = l := by
  intro fuel
  induction fuel with
  | zero =>
    intro l hl
    cases l with
    | nil => rfl
    | cons x xs => simp at hl
  | succ fuel ih =>
    intro l hl
    cases l with
    | nil => rfl
    | cons x xs =>
      simp only [chunksGo, List.flatten_cons]
      rw [ih ((x :: xs).drop n) (by simp only [List.length_drop]; simp at hl ⊢; omega)]
      exact List.take_append_drop n (x :: xs)

theorem chunks_flatten {α : Type _} (n : ℕ) (hn : 0 < n) (l : List α) :
    (chunks n l).flatten = l := by
  rw [chunks, if_neg (Nat.pos_iff_ne_zero.mp hn)]
  exact chunksGo_flatten n hn l.length l le_rfl

/-- Per-language body of the prediction loop in `predict_with_probabilities`:
texts are batched by the data loader, each batch is run through the model
(softmax probabilities per row, given by the oracle `modelProbs`), predictions
are thresholded per row, and batch results are concatenated in order.
True labels are taken from the dataframe's label column. -/
def predictLang (modelProbs : List String → List (ℚ × ℚ))
    (df : List (String × ℤ)) (batch_size : ℕ) (conf_th : ℚ) : LangResult :=
  let probBatches := (chunks batch_size (df.map Prod.fst)).map modelProbs
  { true_labels := df.map Prod.snd
    pred_labels := (probBatches.map (fun ps => ps.map (predLabel conf_th))).flatten
    pred_probs := probBatches.flatten }

/-- `predict_with_probabilities(model_path, tokenizer, df_by_language, device,
batch_size=32, conf_th=0.5)`, restricted to its data path: for each language
independently, run the batched prediction loop. Model loading, the file-path
assertion and devices concern the external torch checkpoint and are not part
of the data transformation. -/
def predict_with_probabilities (modelProbs : List String → List (ℚ × ℚ))
    (df_by_language : List (String × List (String × ℤ)))
    (batch_size : ℕ) (conf_th : ℚ) : List (String × LangResult) :=
  df_by_language.map fun e => (e.1, predictLang modelProbs e.2 batch_size conf_th)

theorem predLabel_eq_one_iff (th : ℚ) (p : ℚ × ℚ) :
    predLabel th p = 1 ↔ th < p.2 := by
  by_cases h : th < p.2 <;> simp [predLabel, h]

theorem predLabel_eq_zero_iff (th : ℚ) (p : ℚ × ℚ) :
    predLabel th p = 0 ↔ ¬ th < p.2 := by
  by_cases h : th < p.2 <;> simp [predLabel, h]

theorem predictLang_pred_labels (modelProbs : List String → List (ℚ × ℚ))
    (df : List (String × ℤ)) (bs : ℕ) (th : ℚ) :
    (predictLang modelProbs df bs th).pred_labels =
      (predictLang modelProbs df bs th).pred_probs.map (predLabel th) := by
  simp [predictLang, List.map_flatten]

/-- Probability oracle used for concrete witnesses: every row receives the
probability pair (0.5, 0.5). -/
def exOracle : List String → List (ℚ × ℚ) := fun ts => ts.map fun _ => (1/2, 1/2)

/-- Concrete per-language record used by the witnesses. -/
def exLang : LangResult := predictLang exOracle [("hi", 0)] 32 (1/2)

/-- C1: for every row of every language the binary prediction of the
Inference Runner is 1 (toxic) exactly when the softmax probability of class 1
strictly exceeds `conf_th` and 0 otherwise; in particular, probability pair
(0.5, 0.5) at `conf_th = 0.5` yields label 0 and (0.4, 0.6) yields label 1. -/
theorem predicted_label_iff_above_threshold :
    (∀ (modelProbs : List String → List (ℚ × ℚ))
       (dfs : List (String × List (String × ℤ))) (bs : ℕ) (th : ℚ),
       ∀ e ∈ predict_with_probabilities modelProbs dfs bs th,
       ∀ i, i < e.2.pred_probs.length →
         (e.2.pred_labels.getD i 0 = 1 ↔ th < (e.2.pred_probs.getD i (0, 0)).2) ∧
         (e.2.pred_labels.getD i 0 = 0 ↔ ¬ th < (e.2.pred_probs.getD i (0, 0)).2))
    ∧ predLabel (1/2) (1/2, 1/2) = 0 ∧ predLabel (1/2) (2/5, 3/5) = 1 := by
  refine ⟨?_, by norm_num [predLabel], by norm_num [predLabel]⟩
  intro modelProbs dfs bs th e he i hi
  simp only [predict_with_probabilities, List.mem_map] at he
  obtain ⟨a, _, rfl⟩ := he
  simp only
  rw [predictLang_pred_labels]
  have hlen : i < ((predictLang modelProbs a.2 bs th).pred_probs.map (predLabel th)).length := by
    simpa using hi
  rw [List.getD_eq_getElem _ _ hlen, List.getD_eq_getElem _ _ hi, List.getElem_map]
  exact ⟨predLabel_eq_one_iff th _, predLabel_eq_zero_iff th _⟩

/-- Witness for C1 at a concrete input. -/
theorem predicted_label_iff_above_threshold_witness :
    ((exLang.pred_labels.getD 0 0 = 1 ↔
        (1:ℚ)/2 < (exLang.pred_probs.getD 0 (0, 0)).2) ∧
      (exLang.pred_labels.getD 0 0 = 0 ↔
        ¬ (1:ℚ)/2 < (exLang.pred_probs.getD 0 (0, 0)).2)) :=
  predicted_label_iff_above_threshold.1 exOracle
    [("en", [("hi", 0)])] 32 (1/2) ("en", exLang)
    (by simp [predict_with_probabilities, exLang]) 0 (by decide)

/-- C5: every per-language record returned by the Inference Runner has
`true_labels`, `pred_labels` and `pred_probs` of equal length, provided the
model emits one probability pair per input row and the batch size is
positive. -/
theorem prediction_result_lengths_aligned :
    ∀ (modelProbs : List String → List (ℚ × ℚ))
      (dfs : List (String × List (String × ℤ))) (bs : ℕ) (th : ℚ),
      (∀ ts, (modelProbs ts).length = ts.length) → 0 < bs →
      ∀ e ∈ predict_with_probabilities modelProbs dfs bs th,
        e.2.true_labels.length = e.2.pred_labels.length ∧
        e.2.pred_labels.length = e.2.pred_probs.length := by
  intro modelProbs dfs bs th hf hbs e he
  simp only [predict_with_probabilities, List.mem_map] at he
  obtain ⟨a, _, rfl⟩ := he
  simp only [predictLang, List.length_flatten, List.map_map, List.length_map]
  have hcong :
      List.map (List.length ∘ (fun ps => List.map (predLabel th) ps) ∘ modelProbs)
        (chunks bs (List.map Prod.fst a.2)) =
      List.map (List.length ∘ modelProbs) (chunks bs (List.map Prod.fst a.2)) :=
    List.map_congr_left fun b _ => by simp
  have hprobs :
      (List.map (List.length ∘ modelProbs) (chunks bs (List.map Prod.fst a.2))).sum =
        a.2.length := by
    have h1 : List.map (List.length ∘ modelProbs) (chunks bs (List.map Prod.fst a.2)) =
        List.map List.length (chunks bs (List.map Prod.fst a.2)) :=
      List.map_congr_left fun b _ => hf b
    rw [h1, ← List.length_flatten, chunks_flatten bs hbs, List.length_map]
  rw [hcong, hprobs]
  exact ⟨rfl, rfl⟩

/-- Witness for C5 at a concrete input. -/
theorem prediction_result_lengths_aligned_witness :
    exLang.true_labels.length = exLang.pred_labels.length ∧
    exLang.pred_labels.length = exLang.pred_probs.length :=
  prediction_result_lengths_aligned exOracle
    [("en", [("hi", 0)])] 32 (1/2)
    (fun ts => by simp [exOracle]) (by decide)
    ("en", exLang)
    (by simp [predict_with_probabilities, exLang])

/-- `plot_training_curves(train_accs, train_losses, val_accs, val_losses)` up
to its two assertions (the rest of the body only renders): the first failing
assertion raises, otherwise control reaches the plotting code. -/
def plot_training_curves (train_accs train_losses val_accs val_losses : List ℚ) :
    Except String Unit :=
  if train_accs.length ≠ val_accs.length then
    .error "Training and validation accuracies must have the same length"
  else if train_losses.length ≠ val_losses.length then
    .error "Training and validation losses must have the same length"
  else .ok ()

/-- C7: `plot_training_curves` fails exactly when the train/validation
accuracy lengths differ or the train/validation loss lengths differ; the two
checks are independent, so accuracy sequences of length 2 together with loss
sequences of length 3 are accepted. -/
theorem training_curves_length_checks :
    (∀ train_accs train_losses val_accs val_losses : List ℚ,
        plot_training_curves train_accs train_losses val_accs val_losses ≠ .ok () ↔
          train_accs.length ≠ val_accs.length ∨ train_losses.length ≠ val_losses.length)
    ∧ plot_training_curves [0, 0] [0, 0, 0] [1, 1] [1, 1, 1] = .ok () := by
  constructor
  · intro ta tl va vl
    by_cases h1 : ta.length = va.length <;> by_cases h2 : tl.length = vl.length <;>
      simp [plot_training_curves, h1, h2]
  · rfl

/-- Assertion message of the pooled length check in `show_confusion_matrix`. -/
def sizeMismatchMsg : String := "Expected true and pred labels to have the same size"

/-- Assertion message of the entry-count check in `show_confusion_matrix`. -/
def entryCountMsg : String := "Expected 4 language entries"

/-- Pooled true labels accumulated by the loop of `show_confusion_matrix`
(`total_labels[TRUE_LABELS].extend(...)` per language, in order). -/
def totalTrueLabels (d : List (String × LangResult)) : List ℤ :=
  d.flatMap fun e => e.2.true_labels

/-- Pooled predicted labels accumulated by the loop of
`show_confusion_matrix`. -/
def totalPredLabels (d : List (String × LangResult)) : List ℤ :=
  d.flatMap fun e => e.2.pred_labels

/-- Size of the merged dict `{**deepcopy(d), "all languages": total_labels}`:
adding the pooled entry grows the dict only when the key `"all languages"` is
not already present (dict keys are unique). -/
def mergedEntryCount (d : List (String × LangResult)) : ℕ :=
  if "all languages" ∈ d.map Prod.fst then d.length else d.length + 1

/-- `show_confusion_matrix(labels_and_predictions_by_lang)` up to its two
assertions, in source order: first the pooled-length check, then the
four-entries check on the merged dict; afterwards the body only renders. -/
def show_confusion_matrix (d : List (String × LangResult)) : Except String Unit :=
  if (totalTrueLabels d).length ≠ (totalPredLabels d).length then .error sizeMismatchMsg
  else if mergedEntryCount d ≠ 4 then .error entryCountMsg
  else .ok ()

/-- C6: the pooled-length assertion of `show_confusion_matrix` fires exactly
on pooled length mismatch: whenever the concatenated true-label and
predicted-label sequences differ in length the function raises that
assertion, and whenever every per-language pair of sequences has matching
lengths the pooled lengths agree and that assertion cannot fire. -/
theorem pooled_length_check_characterization :
    ∀ d : List (String × LangResult),
      ((totalTrueLabels d).length ≠ (totalPredLabels d).length →
        show_confusion_matrix d = .error sizeMismatchMsg) ∧
      ((∀ e ∈ d, e.2.true_labels.length = e.2.pred_labels.length) →
        (totalTrueLabels d).length = (totalPredLabels d).length ∧
        show_confusion_matrix d ≠ .error sizeMismatchMsg) := by
  intro d
  constructor
  · intro h
    simp [show_confusion_matrix, h]
  · intro h
    have heq : (totalTrueLabels d).length = (totalPredLabels d).length := by
      simp only [totalTrueLabels, totalPredLabels, List.length_flatMap]
      exact congrArg List.sum (List.map_congr_left fun e he => by simp [h e he])
    refine ⟨heq, ?_⟩
    simp only [show_confusion_matrix]
    rw [if_neg (by simp [heq])]
    by_cases hc : mergedEntryCount d ≠ 4 <;>
      simp [hc, sizeMismatchMsg, entryCountMsg]

/-- Witness for C6 at a concrete input with mismatched pooled lengths. -/
theorem pooled_length_check_characterization_witness :
    show_confusion_matrix [("a", ⟨[0], [], []⟩)] = .error sizeMismatchMsg :=
  (pooled_length_check_characterization [("a", ⟨[0], [], []⟩)]).1 (by decide)

/-- Counterexample for C4 as stated: an input with four language entries, one
of them keyed `"all languages"`, on which `show_confusion_matrix` raises no
assertion even though the number of entries is not 3. -/
theorem confusion_matrix_count_counterexample :
    show_confusion_matrix
      [("a", ⟨[0], [0], []⟩), ("b", ⟨[0], [0], []⟩), ("c", ⟨[0], [0], []⟩),
       ("all languages", ⟨[0], [0], []⟩)] = .ok () ∧
    ([("a", (⟨[0], [0], []⟩ : LangResult)), ("b", ⟨[0], [0], []⟩),
      ("c", ⟨[0], [0], []⟩), ("all languages", ⟨[0], [0], []⟩)].length ≠ 3) := by
  constructor
  · rfl
  · decide

/-- C4 (amended): `show_confusion_matrix` succeeds only when the merged
mapping has exactly 4 entries — that is, on 3 language entries when the key
`"all languages"` is absent, or on 4 entries when that key is already
present — and it fails whenever that entry-count condition does not hold
(in particular on every entry count other than 3 or 4, on 3 entries
containing the key `"all languages"`, and on 4 entries not containing it). -/
theorem confusion_matrix_entry_count_precondition :
    ∀ d : List (String × LangResult),
      (show_confusion_matrix d = .ok () →
        (if "all languages" ∈ d.map Prod.fst then d.length = 4 else d.length = 3)) ∧
      (¬ (if "all languages" ∈ d.map Prod.fst then d.length = 4 else d.length = 3) →
        show_confusion_matrix d ≠ .ok ()) := by
  intro d
  have key : show_confusion_matrix d = .ok () →
      (if "all languages" ∈ d.map Prod.fst then d.length = 4 else d.length = 3) := by
    intro h
    simp only [show_confusion_matrix] at h
    split_ifs at h with h1 h2
    all_goals try simp at h
    have h4 : mergedEntryCount d = 4 := not_not.mp h2
    by_cases hk : "all languages" ∈ d.map Prod.fst
    · rw [if_pos hk]
      rw [mergedEntryCount, if_pos hk] at h4
      exact h4
    · rw [if_neg hk]
      rw [mergedEntryCount, if_neg hk] at h4
      omega
  exact ⟨key, fun hc hok => hc (key hok)⟩

/-- Witness for the amended C4 at a concrete input with zero entries. -/
theorem confusion_matrix_entry_count_precondition_witness :
    show_confusion_matrix [] ≠ .ok () :=
  (confusion_matrix_entry_count_precondition []).2 (by decide)

/-- Failure record built by `find_top_failures`:
`{'true_label': ..., 'pred_label': ..., 'confidence': max(prob), 'text': ...}`. -/
structure Failure where
  true_label : ℤ
  pred_label : ℤ
  confidence : ℚ
  text : String
deriving DecidableEq

/-- Loop body of `find_top_failures`: `for i, (true_label, pred_label, prob)
in enumerate(zip(...))`, keeping the mismatched rows in order. The
out-of-range default of `texts.getD` is never reached on corpus-aligned
inputs (Python would raise `IndexError` from `iloc` there). -/
def rowFailuresGo (texts : List String) : ℕ → List ((ℤ × ℤ) × (ℚ × ℚ)) → List Failure
  | _, [] => []
  | i, ((t, p), pr) :: rest =>
    (if t ≠ p then [⟨t, p, max pr.1 pr.2, texts.getD i ""⟩] else []) ++
      rowFailuresGo texts (i + 1) rest

/-- All mismatched rows of one language, in row order; the three sequences
are zipped exactly as `zip(true_labels, pred_labels, pred_probs)` (truncating
to the shortest). -/
def rowFailures (texts : List String) (r : LangResult) : List Failure :=
  rowFailuresGo texts 0 ((r.true_labels.zip r.pred_labels).zip r.pred_probs)

/-- `sorted(failures, key=lambda x: x['confidence'], reverse=True)`. -/
def sortFailuresDesc (l : List Failure) : List Failure :=
  List.insertionSort (fun a b => b.confidence ≤ a.confidence) l

instance : IsTotal Failure (fun a b => b.confidence ≤ a.confidence) :=
  ⟨fun a b => le_total b.confidence a.confidence⟩

instance : IsTrans Failure (fun a b => b.confidence ≤ a.confidence) :=
  ⟨fun _ _ _ hab hbc => le_trans hbc hab⟩

/-- Per-language body of `find_top_failures`: partition the mismatched rows
by true label (`true_label == 0` goes to "False TOXIC", the rest to "False
NON-TOXIC"), sort each part by confidence descending, truncate to the top
`K`. -/
def langTopFailures (texts : List String) (r : LangResult) (K : ℕ) :
    List Failure × List Failure :=
  let fails := rowFailures texts r
  ((sortFailuresDesc (fails.filter fun f => decide (f.true_label = 0))).take K,
   (sortFailuresDesc (fails.filter fun f => decide (¬ f.true_label = 0))).take K)

/-- `find_top_failures(dataset_by_language, matches_by_language,
top_failures=5)`: the corpus is the list of per-language text columns, and
the prediction-result dict is modelled as a total lookup `String →
LangResult` (the Python code indexes `matches_by_language[lang]`, so every
language of the corpus must be a key or `KeyError` propagates). -/
def find_top_failures (dataset_by_language : List (String × List String))
    (matches_by_language : String → LangResult) (top_failures : ℕ) :
    List (String × (List Failure × List Failure)) :=
  dataset_by_language.map fun e =>
    (e.1, langTopFailures e.2 (matches_by_language e.1) top_failures)

theorem rowFailuresGo_mem {texts : List String} {rec : Failure} :
    ∀ {i : ℕ} {trips : List ((ℤ × ℤ) × (ℚ × ℚ))}, rec ∈ rowFailuresGo texts i trips →
    ∃ j, j < trips.length ∧
      (trips.getD j default).1.1 = rec.true_label ∧
      (trips.getD j default).1.2 = rec.pred_label ∧
      rec.confidence = max (trips.getD j default).2.1 (trips.getD j default).2.2 ∧
      rec.true_label ≠ rec.pred_label := by
  intro i trips h
  induction trips generalizing i with
  | nil => simp [rowFailuresGo] at h
  | cons hd rest ih =>
    obtain ⟨⟨t, p⟩, pr⟩ := hd
    simp only [rowFailuresGo, List.mem_append] at h
    rcases h with h | h
    · by_cases htp : t ≠ p
      · rw [if_pos htp] at h
        simp only [List.mem_singleton] at h
        subst h
        exact ⟨0, by simp, rfl, rfl, rfl, htp⟩
      · rw [if_neg htp] at h
        simp at h
    · obtain ⟨j, hj, h1, h2, h3, h4⟩ := ih h
      exact ⟨j + 1, by simpa using hj, h1, h2, h3, h4⟩

theorem mem_topList {K : ℕ} {q : Failure → Bool} {l : List Failure} {rec : Failure}
    (h : rec ∈ (sortFailuresDesc (l.filter q)).take K) : rec ∈ l ∧ q rec = true := by
  have h1 : rec ∈ sortFailuresDesc (l.filter q) := List.mem_of_mem_take h
  have h2 : rec ∈ l.filter q := by simpa [sortFailuresDesc] using h1
  exact List.mem_filter.mp h2

theorem rowFailures_facts {texts : List String} {r : LangResult}
    (htrue : ∀ t ∈ r.true_labels, t = 0 ∨ t = 1)
    (hpred : ∀ p ∈ r.pred_labels, p = 0 ∨ p = 1) :
    ∀ rec ∈ rowFailures texts r,
      (rec.true_label = 0 ∨ rec.true_label = 1) ∧
      (rec.pred_label = 0 ∨ rec.pred_label = 1) ∧
      rec.true_label ≠ rec.pred_label ∧
      ∃ j, j < r.true_labels.length ∧ j < r.pred_labels.length ∧
        j < r.pred_probs.length ∧
        r.true_labels.getD j 0 = rec.true_label ∧
        r.pred_labels.getD j 0 = rec.pred_label ∧
        rec.confidence = max (r.pred_probs.getD j (0, 0)).1 (r.pred_probs.getD j (0, 0)).2 := by
  intro rec hm
  obtain ⟨j, hj, h1, h2, h3, h4⟩ := rowFailuresGo_mem hm
  rw [List.getD_eq_getElem _ _ hj] at h1 h2 h3
  have hj' := hj
  simp only [List.length_zip, lt_min_iff] at hj'
  obtain ⟨⟨hjt, hjp⟩, hjq⟩ := hj'
  simp only [List.getElem_zip] at h1 h2 h3
  refine ⟨?_, ?_, h4, ?_⟩
  · exact h1 ▸ htrue _ (List.getElem_mem hjt)
  · exact h2 ▸ hpred _ (List.getElem_mem hjp)
  · refine ⟨j, hjt, hjp, hjq, ?_, ?_, ?_⟩
    · rw [List.getD_eq_getElem _ _ hjt]
      exact h1
    · rw [List.getD_eq_getElem _ _ hjp]
      exact h2
    · rw [List.getD_eq_getElem _ _ hjq]
      exact h3

/-- C2: in every language entry of `find_top_failures` on binary-labelled
prediction results, every "False TOXIC" record has true label 0 and
predicted label 1, every "False NON-TOXIC" record has true label 1 and
predicted label 0, every record comes from a row whose true and predicted
labels are the record's and whose probability pair's maximum is the record's
confidence, both lists are sorted by non-increasing confidence, and both
lists have at most `K` records. -/
theorem top_failures_characterization :
    ∀ (datasets : List (String × List String)) (preds : String → LangResult) (K : ℕ),
      (∀ d ∈ datasets, (∀ t ∈ (preds d.1).true_labels, t = 0 ∨ t = 1) ∧
          (∀ p ∈ (preds d.1).pred_labels, p = 0 ∨ p = 1)) →
      ∀ e ∈ find_top_failures datasets preds K,
        (∀ rec ∈ e.2.1, rec.true_label = 0 ∧ rec.pred_label = 1) ∧
        (∀ rec ∈ e.2.2, rec.true_label = 1 ∧ rec.pred_label = 0) ∧
        (∀ rec ∈ e.2.1 ++ e.2.2, ∃ j,
          j < (preds e.1).true_labels.length ∧
          j < (preds e.1).pred_labels.length ∧
          j < (preds e.1).pred_probs.length ∧
          (preds e.1).true_labels.getD j 0 = rec.true_label ∧
          (preds e.1).pred_labels.getD j 0 = rec.pred_label ∧
          rec.confidence = max ((preds e.1).pred_probs.getD j (0, 0)).1
            ((preds e.1).pred_probs.getD j (0, 0)).2) ∧
        List.Sorted (· ≥ ·) (e.2.1.map Failure.confidence) ∧
        List.Sorted (· ≥ ·) (e.2.2.map Failure.confidence) ∧
        e.2.1.length ≤ K ∧ e.2.2.length ≤ K := by
  intro datasets preds K hbin e he
  simp only [find_top_failures, List.mem_map] at he
  obtain ⟨a, ha, rfl⟩ := he
  obtain ⟨htrue, hpred⟩ := hbin a ha
  have hrow := @rowFailures_facts a.2 (preds a.1) htrue hpred
  simp only [langTopFailures]
  refine ⟨?_, ?_, ?_, ?_, ?_, ?_, ?_⟩
  · intro rec hm
    obtain ⟨hmem, hq⟩ := mem_topList hm
    have h0 : rec.true_label = 0 := of_decide_eq_true hq
    obtain ⟨_, hp, hne, _⟩ := hrow rec hmem
    rcases hp with h | h
    · exact absurd (h0.trans h.symm) hne
    · exact ⟨h0, h⟩
  · intro rec hm
    obtain ⟨hmem, hq⟩ := mem_topList hm
    have h0 : ¬ rec.true_label = 0 := of_decide_eq_true hq
    obtain ⟨ht, hp, hne, _⟩ := hrow rec hmem
    have h1 : rec.true_label = 1 := ht.resolve_left h0
    rcases hp with h | h
    · exact ⟨h1, h⟩
    · exact absurd (h1.trans h.symm) hne
  · intro rec hm
    rcases List.mem_append.mp hm with hm | hm <;>
      exact (hrow rec (mem_topList hm).1).2.2.2
  · exact List.pairwise_map.mpr
      (List.Pairwise.sublist (List.take_sublist K _)
        (List.sorted_insertionSort (fun a b : Failure => b.confidence ≤ a.confidence) _))
  · exact List.pairwise_map.mpr
      (List.Pairwise.sublist (List.take_sublist K _)
        (List.sorted_insertionSort (fun a b : Failure => b.confidence ≤ a.confidence) _))
  · exact List.length_take_le K _
  · exact List.length_take_le K _

/-- Prediction results used by the C2 witness: one correct and one
mismatched row. -/
def exMatches : String → LangResult :=
  fun _ => ⟨[0, 1], [1, 1], [(1/2, 1/2), (1/4, 3/4)]⟩

/-- Witness for C2 at a concrete input. -/
theorem top_failures_characterization_witness :
    (∀ rec ∈ ("en", langTopFailures ["a", "b"] (exMatches "en") 5).2.1,
        rec.true_label = 0 ∧ rec.pred_label = 1) ∧
    (∀ rec ∈ ("en", langTopFailures ["a", "b"] (exMatches "en") 5).2.2,
        rec.true_label = 1 ∧ rec.pred_label = 0) ∧
    (∀ rec ∈ ("en", langTopFailures ["a", "b"] (exMatches "en") 5).2.1 ++
        ("en", langTopFailures ["a", "b"] (exMatches "en") 5).2.2,
      ∃ j, j < (exMatches "en").true_labels.length ∧
        j < (exMatches "en").pred_labels.length ∧
        j < (exMatches "en").pred_probs.length ∧
        (exMatches "en").true_labels.getD j 0 = rec.true_label ∧
        (exMatches "en").pred_labels.getD j 0 = rec.pred_label ∧
        rec.confidence = max ((exMatches "en").pred_probs.getD j (0, 0)).1
          ((exMatches "en").pred_probs.getD j (0, 0)).2) ∧
    List.Sorted (· ≥ ·)
      (("en", langTopFailures ["a", "b"] (exMatches "en") 5).2.1.map Failure.confidence) ∧
    List.Sorted (· ≥ ·)
      (("en", langTopFailures ["a", "b"] (exMatches "en") 5).2.2.map Failure.confidence) ∧
    ("en", langTopFailures ["a", "b"] (exMatches "en") 5).2.1.length ≤ 5 ∧
    ("en", langTopFailures ["a", "b"] (exMatches "en") 5).2.2.length ≤ 5 :=
  top_failures_characterization [("en", ["a", "b"])] exMatches 5
    (by decide) ("en", langTopFailures ["a", "b"] (exMatches "en") 5)
    (by simp [find_top_failures])

/-- Scanning loop of `np.argmax`: keep the first index attaining the running
maximum, replacing it only on a strictly larger value. -/
def argmaxGo : ℚ → ℕ → ℕ → List ℚ → ℕ
  | _, bestIdx, _, [] => bestIdx
  | best, bestIdx, cur, x :: xs =>
    if best < x then argmaxGo x cur (cur + 1) xs else argmaxGo best bestIdx (cur + 1) xs

/-- `np.argmax`: index of the first occurrence of the maximum value (numpy
raises on an empty array, so the value 0 there is immaterial). -/
def argmaxIdx : List ℚ → ℕ
  | [] => 0
  | x :: xs => argmaxGo x 0 1 xs

theorem argmaxGo_spec (xs : List ℚ) : ∀ (best : ℚ) (bestIdx cur : ℕ),
    (argmaxGo best bestIdx cur xs = bestIdx ∧ ∀ x ∈ xs, x ≤ best) ∨
    (∃ j, j < xs.length ∧ argmaxGo best bestIdx cur xs = cur + j ∧ best < xs.getD j 0 ∧
      (∀ i, i < xs.length → xs.getD i 0 ≤ xs.getD j 0) ∧
      (∀ i, i < j → xs.getD i 0 < xs.getD j 0)) := by
  induction xs with
  | nil =>
    intro best bestIdx cur
    left
    exact ⟨rfl, by simp⟩
  | cons x xs ih =>
    intro best bestIdx cur
    simp only [argmaxGo]
    by_cases h : best < x
    · rw [if_pos h]
      right
      rcases ih x cur (cur + 1) with ⟨heq, hle⟩ | ⟨j, hj, heq, hlt, hmax, hfirst⟩
      · refine ⟨0, by simp, by simpa using heq, by simpa using h, ?_, by simp⟩
        intro i hi
        match i with
        | 0 => exact le_rfl
        | i + 1 =>
          simp only [List.getD_cons_succ, List.getD_cons_zero]
          have hi' : i < xs.length := by simpa using hi
          rw [List.getD_eq_getElem _ _ hi']
          exact hle _ (List.getElem_mem hi')
      · refine ⟨j + 1, by simpa using hj, by rw [heq]; omega, ?_, ?_, ?_⟩
        · simpa using lt_trans h hlt
        · intro i hi
          match i with
          | 0 => simpa using le_of_lt hlt
          | i + 1 =>
            simp only [List.getD_cons_succ]
            exact hmax i (by simpa using hi)
        · intro i hi
          match i with
          | 0 => simpa using hlt
          | i + 1 =>
            simp only [List.getD_cons_succ]
            exact hfirst i (by omega)
    · rw [if_neg h]
      rcases ih best bestIdx (cur + 1) with ⟨heq, hle⟩ | ⟨j, hj, heq, hlt, hmax, hfirst⟩
      · left
        refine ⟨heq, ?_⟩
        intro y hy
        rcases List.mem_cons.mp hy with rfl | hy
        · exact not_lt.mp h
        · exact hle y hy
      · right
        refine ⟨j + 1, by simpa using hj, by rw [heq]; omega, ?_, ?_, ?_⟩
        · simpa using hlt
        · intro i hi
          match i with
          | 0 => simpa using le_of_lt (lt_of_le_of_lt (not_lt.mp h) hlt)
          | i + 1 =>
            simp only [List.getD_cons_succ]
            exact hmax i (by simpa using hi)
        · intro i hi
          match i with
          | 0 => simpa using lt_of_le_of_lt (not_lt.mp h) hlt
          | i + 1 =>
            simp only [List.getD_cons_succ]
            exact hfirst i (by omega)

theorem argmaxIdx_spec (l : List ℚ) (hl : l ≠ []) :
    argmaxIdx l < l.length ∧
    (∀ i, i < l.length → l.getD i 0 ≤ l.getD (argmaxIdx l) 0) ∧
    (∀ i, i < argmaxIdx l → l.getD i 0 < l.getD (argmaxIdx l) 0) := by
  match l with
  | [] => exact absurd rfl hl
  | x :: xs =>
    simp only [argmaxIdx]
    rcases argmaxGo_spec xs x 0 1 with ⟨heq, hle⟩ | ⟨j, hj, heq, hlt, hmax, hfirst⟩
    · rw [heq]
      refine ⟨by simp, ?_, by omega⟩
      intro i hi
      match i with
      | 0 => exact le_rfl
      | i + 1 =>
        simp only [List.getD_cons_succ, List.getD_cons_zero]
        have hi' : i < xs.length := by simpa using hi
        rw [List.getD_eq_getElem _ _ hi']
        exact hle _ (List.getElem_mem hi')
    · rw [heq]
      have hidx : 1 + j = j + 1 := by omega
      refine ⟨by simp; omega, ?_, ?_⟩
      · intro i hi
        rw [hidx]
        simp only [List.getD_cons_succ]
        match i with
        | 0 => exact le_of_lt hlt
        | i + 1 =>
          simp only [List.getD_cons_succ]
          exact hmax i (by simpa using hi)
      · intro i hi
        rw [hidx]
        simp only [List.getD_cons_succ]
        match i with
        | 0 => exact hlt
        | i + 1 =>
          simp only [List.getD_cons_succ]
          exact hfirst i (by omega)

/-- Modelled from scikit-learn's `_binary_clf_curve` (the repository calls
`sklearn.metrics.precision_recall_curve`, which lives outside the
repository): the candidate thresholds are the distinct score values in
decreasing order. -/
def prThresholds (pairs : List (ℤ × ℚ)) : List ℚ :=
  List.insertionSort (· ≥ ·) (pairs.map Prod.snd).dedup

/-- True positives at threshold `t`: rows predicted positive (`score ≥ t`)
whose label is the positive class 1. -/
def tpCount (pairs : List (ℤ × ℚ)) (t : ℚ) : ℕ :=
  pairs.countP fun p => decide (t ≤ p.2 ∧ p.1 = 1)

/-- False positives at threshold `t`: rows predicted positive whose label is
not the positive class. -/
def fpCount (pairs : List (ℤ × ℚ)) (t : ℚ) : ℕ :=
  pairs.countP fun p => decide (t ≤ p.2 ∧ ¬ p.1 = 1)

/-- Cumulative true-positive counts along the decreasing thresholds
(`tps` of `_binary_clf_curve`). -/
def prTps (pairs : List (ℤ × ℚ)) : List ℕ :=
  (prThresholds pairs).map (tpCount pairs)

/-- Cumulative false-positive counts along the decreasing thresholds
(`fps` of `_binary_clf_curve`). -/
def prFps (pairs : List (ℤ × ℚ)) : List ℕ :=
  (prThresholds pairs).map (fpCount pairs)

/-- `tps[-1]`, the total number of positive rows (0 on empty input). -/
def prTotalPos (pairs : List (ℤ × ℚ)) : ℕ :=
  (prTps pairs).getLastD 0

/-- `precision = tps / (tps + fps)` along the decreasing thresholds. -/
def prPrecisionRaw (pairs : List (ℤ × ℚ)) : List ℚ :=
  List.zipWith (fun tp fp : ℕ => (tp : ℚ) / ((tp : ℚ) + (fp : ℚ)))
    (prTps pairs) (prFps pairs)

/-- `recall = tps / tps[-1]` along the decreasing thresholds; scikit-learn
warns and uses all-ones recall when there are no positive labels. -/
def prRecallRaw (pairs : List (ℤ × ℚ)) : List ℚ :=
  if prTotalPos pairs = 0 then (prTps pairs).map fun _ => (1 : ℚ)
  else (prTps pairs).map fun tp : ℕ => (tp : ℚ) / (prTotalPos pairs : ℚ)

/-- `last_ind + 1` where `last_ind = tps.searchsorted(tps[-1])`: one past the
first index reaching full recall (`tps` is non-decreasing, so searchsorted
with its default left side is the first index with `tps[i] ≥ tps[-1]`). -/
def prCut (pairs : List (ℤ × ℚ)) : ℕ :=
  (prTps pairs).findIdx (fun tp => decide (prTotalPos pairs ≤ tp)) + 1

/-- Kept and reversed precision samples (`precision[sl]`). -/
def prPrecFinal (pairs : List (ℤ × ℚ)) : List ℚ :=
  ((prPrecisionRaw pairs).take (prCut pairs)).reverse

/-- Kept and reversed recall samples (`recall[sl]`). -/
def prRclFinal (pairs : List (ℤ × ℚ)) : List ℚ :=
  ((prRecallRaw pairs).take (prCut pairs)).reverse

/-- Kept and reversed thresholds (`thresholds[sl]`). -/
def prThrFinal (pairs : List (ℤ × ℚ)) : List ℚ :=
  ((prThresholds pairs).take (prCut pairs)).reverse

/-- Modelled from scikit-learn's `precision_recall_curve(y_true, probas_pred)`
on the row list `pairs = zip(y_true, probas_pred)`: the prefix of the raw
precision/recall arrays up to the first full-recall point is kept and
reversed so thresholds increase, and a final point with precision 1 and
recall 0 is appended (that point has no threshold, so `thresholds` is one
shorter). Returns `(precision, recall, thresholds)`. -/
def precision_recall_curve (pairs : List (ℤ × ℚ)) : List ℚ × List ℚ × List ℚ :=
  (prPrecFinal pairs ++ [1], prRclFinal pairs ++ [0], prThrFinal pairs)

/-- Trapezoidal integral `np.trapz(y, x)`. -/
def trapz (y x : List ℚ) : ℚ :=
  (List.zipWith (fun xs ys => (xs.2 - xs.1) * (ys.1 + ys.2) / 2)
    (x.zip x.tail) (y.zip y.tail)).sum

/-- Modelled from scikit-learn's `auc(x, y)`: the trapezoidal area under the
curve, negated when `x` is decreasing; an error when `x` is not monotonic. -/
def auc (x y : List ℚ) : Except String ℚ :=
  let dx := List.zipWith (fun a b => b - a) x x.tail
  if dx.all fun d => decide (0 ≤ d) then .ok (trapz y x)
  else if dx.all fun d => decide (d ≤ 0) then .ok (-(trapz y x))
  else .error "x is neither increasing nor decreasing"

/-- Pooled true labels accumulated by `plot_combined_precision_recall_curve`
(`total_true_labels.extend(...)` per language, in order). -/
def pooledTrue (results : List (String × LangResult)) : List ℤ :=
  results.flatMap fun e => e.2.true_labels

/-- Pooled probabilities of being toxic (second component of each pair),
accumulated per language in order. -/
def pooledScores (results : List (String × LangResult)) : List ℚ :=
  results.flatMap fun e => e.2.pred_probs.map Prod.snd

/-- Row pairing `(y_true[i], probas_pred[i])` performed inside
`precision_recall_curve` on the two pooled sequences. -/
def pooledPairs (results : List (String × LangResult)) : List (ℤ × ℚ) :=
  (pooledTrue results).zip (pooledScores results)

/-- `optimal_idx = np.argmax(np.sqrt(precision * recall))`. The square root
is strictly monotone on the non-negative sampled values, so the first-maximum
index over `√(precision·recall)` is the first-maximum index over the products
`precision * recall`; the √-level characterisation is proved in the C3
theorem. -/
def optimalIdx (precision rcl : List ℚ) : ℕ :=
  argmaxIdx (List.zipWith (· * ·) precision rcl)

/-- Curve computed by `plot_combined_precision_recall_curve` on the pooled
labels and scores. -/
def prCurvePooled (results : List (String × LangResult)) : List ℚ × List ℚ × List ℚ :=
  precision_recall_curve (pooledPairs results)

/-- `pr_auc = auc(recall, precision)` as computed by
`plot_combined_precision_recall_curve`. -/
def prAUCPooled (results : List (String × LangResult)) : Except String ℚ :=
  auc (prCurvePooled results).2.1 (prCurvePooled results).1

/-- Index of the selected optimal operating point in
`plot_combined_precision_recall_curve`. -/
def optimalIdxPooled (results : List (String × LangResult)) : ℕ :=
  optimalIdx (prCurvePooled results).1 (prCurvePooled results).2.1

/-- Comparison criterion named by the spec but not used by the code: the
sampled point maximizing the F1 score `2pr/(p+r)` (0 at `p + r = 0`). -/
def f1ArgmaxIdx (precision rcl : List ℚ) : ℕ :=
  argmaxIdx (List.zipWith
    (fun p r => if p + r = 0 then 0 else 2 * p * r / (p + r)) precision rcl)

/-- First index of the minimum value (`np.argmin`), via negation. -/
def argminIdx (l : List ℚ) : ℕ := argmaxIdx (l.map Neg.neg)

/-- Comparison criterion named by the spec but not used by the code: the
sampled point closest to the perfect corner `(recall, precision) = (1, 1)`
in squared Euclidean distance. -/
def closestToPerfectIdx (precision rcl : List ℚ) : ℕ :=
  argminIdx (List.zipWith (fun p r => (1 - p) ^ 2 + (1 - r) ^ 2) precision rcl)

theorem pooledPairs_eq_flatMap (results : List (String × LangResult))
    (h : ∀ e ∈ results, e.2.true_labels.length = e.2.pred_probs.length) :
    pooledPairs results =
      results.flatMap fun e => e.2.true_labels.zip (e.2.pred_probs.map Prod.snd) := by
  induction results with
  | nil => rfl
  | cons a rest ih =>
    have ha := h a (List.mem_cons_self a rest)
    simp only [pooledPairs, pooledTrue, pooledScores, List.flatMap_cons] at ih ⊢
    rw [List.zip_append (by simpa using ha)]
    rw [ih fun e he => h e (List.mem_cons_of_mem a he)]

theorem prThresholds_perm {pairs pairs' : List (ℤ × ℚ)} (h : pairs.Perm pairs') :
    prThresholds pairs = prThresholds pairs' := by
  apply List.eq_of_perm_of_sorted (r := (· ≥ ·))
  · exact ((List.perm_insertionSort _ _).trans
      ((h.map Prod.snd).dedup)).trans (List.perm_insertionSort _ _).symm
  · exact List.sorted_insertionSort _ _
  · exact List.sorted_insertionSort _ _

theorem prTps_perm {pairs pairs' : List (ℤ × ℚ)} (h : pairs.Perm pairs') :
    prTps pairs = prTps pairs' := by
  unfold prTps
  rw [prThresholds_perm h,
    show tpCount pairs = tpCount pairs' from funext fun t => List.Perm.countP_eq _ h]

theorem prFps_perm {pairs pairs' : List (ℤ × ℚ)} (h : pairs.Perm pairs') :
    prFps pairs = prFps pairs' := by
  unfold prFps
  rw [prThresholds_perm h,
    show fpCount pairs = fpCount pairs' from funext fun t => List.Perm.countP_eq _ h]

theorem precision_recall_curve_perm {pairs pairs' : List (ℤ × ℚ)}
    (h : pairs.Perm pairs') :
    precision_recall_curve pairs = precision_recall_curve pairs' := by
  have hP : prTotalPos pairs = prTotalPos pairs' := by
    unfold prTotalPos
    rw [prTps_perm h]
  have hprec : prPrecisionRaw pairs = prPrecisionRaw pairs' := by
    unfold prPrecisionRaw
    rw [prTps_perm h, prFps_perm h]
  have hrcl : prRecallRaw pairs = prRecallRaw pairs' := by
    unfold prRecallRaw
    rw [prTps_perm h, hP]
  have hcut : prCut pairs = prCut pairs' := by
    unfold prCut
    rw [prTps_perm h, hP]
  unfold precision_recall_curve prPrecFinal prRclFinal prThrFinal
  rw [hprec, hrcl, hcut, prThresholds_perm h]

/-- C8: the precision-recall AUC computed on the pooled labels and toxic
probabilities is invariant under permuting the language entries, given the
per-language alignment of label and probability sequences (without it the
elementwise pairing of the two pooled sequences crosses language
boundaries). -/
theorem pr_auc_pooling_order_invariant :
    ∀ (results results' : List (String × LangResult)), results.Perm results' →
      (∀ e ∈ results, e.2.true_labels.length = e.2.pred_probs.length) →
      prAUCPooled results = prAUCPooled results' := by
  intro rs rs' hperm hlen
  have hlen' : ∀ e ∈ rs', e.2.true_labels.length = e.2.pred_probs.length :=
    fun e he => hlen e (hperm.symm.subset he)
  have hp : (pooledPairs rs).Perm (pooledPairs rs') := by
    rw [pooledPairs_eq_flatMap rs hlen, pooledPairs_eq_flatMap rs' hlen']
    exact List.Perm.flatMap_right _ hperm
  have hc : prCurvePooled rs = prCurvePooled rs' := by
    unfold prCurvePooled
    exact precision_recall_curve_perm hp
  unfold prAUCPooled
  rw [hc]

/-- Language entry used by the C8 witness: one toxic row. -/
def exResA : LangResult := ⟨[1], [1], [(0, 1)]⟩

/-- Language entry used by the C8 witness: one non-toxic row. -/
def exResB : LangResult := ⟨[0], [0], [(1, 0)]⟩

/-- Witness for C8 at a concrete two-language input and its swap. -/
theorem pr_auc_pooling_order_invariant_witness :
    prAUCPooled [("a", exResA), ("b", exResB)] =
      prAUCPooled [("b", exResB), ("a", exResA)] :=
  pr_auc_pooling_order_invariant [("a", exResA), ("b", exResB)]
    [("b", exResB), ("a", exResA)]
    (List.Perm.swap ("b", exResB) ("a", exResA) [])
    (by decide)

theorem prThresholds_ne_nil {pairs : List (ℤ × ℚ)} (hne : pairs ≠ []) :
    prThresholds pairs ≠ [] := by
  intro hcontra
  have hd := List.perm_insertionSort ((· ≥ ·) : ℚ → ℚ → Prop) (pairs.map Prod.snd).dedup
  rw [show List.insertionSort (· ≥ ·) (pairs.map Prod.snd).dedup = prThresholds pairs
    from rfl, hcontra] at hd
  have h1 : (pairs.map Prod.snd).dedup = [] := hd.symm.eq_nil
  rw [List.dedup_eq_nil, List.map_eq_nil_iff] at h1
  exact hne h1

theorem prPrecisionRaw_nonneg (pairs : List (ℤ × ℚ)) :
    ∀ i (h : i < (prPrecisionRaw pairs).length), 0 ≤ (prPrecisionRaw pairs)[i] := by
  intro i h
  unfold prPrecisionRaw at h ⊢
  rw [List.getElem_zipWith]
  positivity

theorem prRecallRaw_nonneg (pairs : List (ℤ × ℚ)) :
    ∀ i (h : i < (prRecallRaw pairs).length), 0 ≤ (prRecallRaw pairs)[i] := by
  intro i h
  by_cases hP0 : prTotalPos pairs = 0
  · simp only [prRecallRaw, if_pos hP0] at h ⊢
    rw [List.getElem_map]
    norm_num
  · simp only [prRecallRaw, if_neg hP0] at h ⊢
    rw [List.getElem_map]
    positivity

theorem prTps_ne_nil {pairs : List (ℤ × ℚ)} (hne : pairs ≠ []) : prTps pairs ≠ [] := by
  unfold prTps
  simpa [List.map_eq_nil_iff] using prThresholds_ne_nil hne

theorem prTps_length (pairs : List (ℤ × ℚ)) :
    (prTps pairs).length = (prThresholds pairs).length := by
  unfold prTps
  simp

theorem prFps_length (pairs : List (ℤ × ℚ)) :
    (prFps pairs).length = (prThresholds pairs).length := by
  unfold prFps
  simp

theorem prFindIdx_lt {pairs : List (ℤ × ℚ)} (hne : pairs ≠ []) :
    (prTps pairs).findIdx (fun tp => decide (prTotalPos pairs ≤ tp)) <
      (prTps pairs).length := by
  have htps := prTps_ne_nil hne
  have hPlast : prTotalPos pairs = (prTps pairs).getLast htps := by
    unfold prTotalPos
    rw [List.getLastD_eq_getLast?, List.getLast?_eq_getLast _ htps]
    rfl
  exact List.findIdx_lt_length_of_exists
    ⟨(prTps pairs).getLast htps, List.getLast_mem htps, by rw [hPlast]; simp⟩

theorem prCut_pos (pairs : List (ℤ × ℚ)) : 1 ≤ prCut pairs := by
  unfold prCut
  omega

theorem prCut_le_length {pairs : List (ℤ × ℚ)} (hne : pairs ≠ []) :
    prCut pairs ≤ (prThresholds pairs).length := by
  have h := prFindIdx_lt hne
  rw [prTps_length] at h
  unfold prCut
  omega

theorem prPrecisionRaw_length (pairs : List (ℤ × ℚ)) :
    (prPrecisionRaw pairs).length = (prThresholds pairs).length := by
  unfold prPrecisionRaw
  rw [List.length_zipWith, prTps_length, prFps_length, Nat.min_self]

theorem prRecallRaw_length (pairs : List (ℤ × ℚ)) :
    (prRecallRaw pairs).length = (prThresholds pairs).length := by
  unfold prRecallRaw
  split <;> simp [prTps_length]

theorem prPrecFinal_length {pairs : List (ℤ × ℚ)} (hne : pairs ≠ []) :
    (prPrecFinal pairs).length = prCut pairs := by
  have h1 := prCut_le_length hne
  unfold prPrecFinal
  rw [List.length_reverse, List.length_take, prPrecisionRaw_length]
  omega

theorem prRclFinal_length {pairs : List (ℤ × ℚ)} (hne : pairs ≠ []) :
    (prRclFinal pairs).length = prCut pairs := by
  have h1 := prCut_le_length hne
  unfold prRclFinal
  rw [List.length_reverse, List.length_take, prRecallRaw_length]
  omega

theorem prThrFinal_length {pairs : List (ℤ × ℚ)} (hne : pairs ≠ []) :
    (prThrFinal pairs).length = prCut pairs := by
  have h1 := prCut_le_length hne
  unfold prThrFinal
  rw [List.length_reverse, List.length_take]
  omega

theorem prPrecFinal_nonneg (pairs : List (ℤ × ℚ)) :
    ∀ i (h : i < (prPrecFinal pairs).length), 0 ≤ (prPrecFinal pairs)[i] := by
  intro i h
  unfold prPrecFinal at h ⊢
  rw [List.getElem_reverse, List.getElem_take]
  exact prPrecisionRaw_nonneg pairs _ _

theorem prRclFinal_nonneg (pairs : List (ℤ × ℚ)) :
    ∀ i (h : i < (prRclFinal pairs).length), 0 ≤ (prRclFinal pairs)[i] := by
  intro i h
  unfold prRclFinal at h ⊢
  rw [List.getElem_reverse, List.getElem_take]
  exact prRecallRaw_nonneg pairs _ _

/-- Products `precision * recall` over the sampled points of the final
curve. -/
def prProducts (pairs : List (ℤ × ℚ)) : List ℚ :=
  List.zipWith (· * ·) (prPrecFinal pairs ++ [1]) (prRclFinal pairs ++ [0])

theorem prFinal_length_eq (pairs : List (ℤ × ℚ)) :
    (prPrecFinal pairs).length = (prRclFinal pairs).length := by
  unfold prPrecFinal prRclFinal
  rw [List.length_reverse, List.length_reverse, List.length_take, List.length_take,
    prPrecisionRaw_length, prRecallRaw_length]

theorem prProducts_eq (pairs : List (ℤ × ℚ)) :
    prProducts pairs =
      List.zipWith (· * ·) (prPrecFinal pairs) (prRclFinal pairs) ++ [0] := by
  unfold prProducts
  rw [List.zipWith_append _ _ _ _ _ (prFinal_length_eq pairs)]
  norm_num

theorem prProducts_length {pairs : List (ℤ × ℚ)} (hne : pairs ≠ []) :
    (prProducts pairs).length = prCut pairs + 1 := by
  rw [prProducts_eq pairs, List.length_append, List.length_zipWith,
    prPrecFinal_length hne, prRclFinal_length hne, Nat.min_self]
  rfl

theorem prProducts_nonneg (pairs : List (ℤ × ℚ)) :
    ∀ i (h : i < (prProducts pairs).length), 0 ≤ (prProducts pairs)[i] := by
  intro i h
  rw [List.getElem_of_eq (prProducts_eq pairs)]
  by_cases hi : i < (List.zipWith (· * ·) (prPrecFinal pairs) (prRclFinal pairs)).length
  · rw [List.getElem_append_left hi, List.getElem_zipWith]
    exact mul_nonneg (prPrecFinal_nonneg pairs _ _) (prRclFinal_nonneg pairs _ _)
  · rw [List.getElem_append_right (not_lt.mp hi), List.getElem_singleton]

theorem prProducts_ne_nil (pairs : List (ℤ × ℚ)) : prProducts pairs ≠ [] := by
  rw [prProducts_eq pairs]
  simp

theorem prProducts_last {pairs : List (ℤ × ℚ)} (hne : pairs ≠ []) :
    (prProducts pairs).getD (prCut pairs) 0 = 0 := by
  have hZ : (List.zipWith (· * ·) (prPrecFinal pairs) (prRclFinal pairs)).length =
      prCut pairs := by
    rw [List.length_zipWith, prPrecFinal_length hne, prRclFinal_length hne, Nat.min_self]
  have hlen : prCut pairs < (prProducts pairs).length := by
    rw [prProducts_length hne]
    omega
  rw [List.getD_eq_getElem _ _ hlen]
  have hrw := prProducts_eq pairs
  rw [List.getElem_of_eq hrw, List.getElem_append_right hZ.le]
  simp [hZ]

/-- Structural safety of the optimal-threshold lookup: on any nonempty row
list, the argmax over the products of the curve's precision and recall
samples is a valid index into the (one element shorter) threshold list. -/
theorem optimalIdx_lt_thresholds_length (pairs : List (ℤ × ℚ)) (hne : pairs ≠ []) :
    optimalIdx (precision_recall_curve pairs).1 (precision_recall_curve pairs).2.1 <
      (precision_recall_curve pairs).2.2.length := by
  have hk1 := prCut_pos pairs
  have hplen := prProducts_length hne
  have hne' : prProducts pairs ≠ [] := List.ne_nil_of_length_pos (by omega)
  obtain ⟨hbound, _, hfirst⟩ := argmaxIdx_spec _ hne'
  have hshow : optimalIdx (precision_recall_curve pairs).1
      (precision_recall_curve pairs).2.1 = argmaxIdx (prProducts pairs) := rfl
  rw [hshow, show (precision_recall_curve pairs).2.2 = prThrFinal pairs from rfl,
    prThrFinal_length hne]
  have hnek : argmaxIdx (prProducts pairs) ≠ prCut pairs := by
    intro hcontra
    have hlt := hfirst 0 (by omega)
    rw [hcontra, prProducts_last hne] at hlt
    have h0 : 0 ≤ (prProducts pairs).getD 0 0 := by
      rw [List.getD_eq_getElem _ _ (by omega)]
      exact prProducts_nonneg pairs 0 (by omega)
    exact absurd hlt (not_lt.mpr h0)
  omega

/-- C9: in `plot_combined_precision_recall_curve`, for every input on which
the curve computation runs (nonempty pooled rows — scikit-learn rejects
empty inputs earlier), the argmax index over `√(precision·recall)` is a
valid index into `thresholds`, even though the precision and recall arrays
hold one more sampled point than `thresholds`. -/
theorem optimal_threshold_lookup_safe :
    ∀ results : List (String × LangResult), pooledPairs results ≠ [] →
      optimalIdxPooled results < (prCurvePooled results).2.2.length := by
  intro results hne
  unfold optimalIdxPooled prCurvePooled
  exact optimalIdx_lt_thresholds_length (pooledPairs results) hne

/-- Witness for C9 at a concrete input. -/
theorem optimal_threshold_lookup_safe_witness :
    optimalIdxPooled [("a", exResA), ("b", exResB)] <
      (prCurvePooled [("a", exResA), ("b", exResB)]).2.2.length :=
  optimal_threshold_lookup_safe [("a", exResA), ("b", exResB)] (by decide)

/-- C3: the Precision-Recall Analyzer's operating point is the first index
maximizing the geometric mean `√(precision·recall)` over the curve's sampled
points (every sample's geometric mean is at most the chosen one, and every
earlier sample's is strictly smaller); and on a constructed curve where the
criteria diverge — precision `[0.9, 0.5]` against recall `[0.28, 0.5]` — the
geometric-mean maximizer (index 0) is chosen while both the F1 maximizer and
the point closest to `(1, 1)` are index 1. -/
theorem optimal_point_maximizes_geometric_mean :
    (∀ results : List (String × LangResult),
      (∀ j, j < (prProducts (pooledPairs results)).length →
        Real.sqrt (((prProducts (pooledPairs results)).getD j 0 : ℝ)) ≤
          Real.sqrt
            (((prProducts (pooledPairs results)).getD (optimalIdxPooled results) 0 : ℝ))) ∧
      (∀ j, j < optimalIdxPooled results →
        Real.sqrt (((prProducts (pooledPairs results)).getD j 0 : ℝ)) <
          Real.sqrt
            (((prProducts (pooledPairs results)).getD (optimalIdxPooled results) 0 : ℝ)))) ∧
    optimalIdx [9/10, 1/2] [28/100, 1/2] = 0 ∧
    f1ArgmaxIdx [9/10, 1/2] [28/100, 1/2] = 1 ∧
    closestToPerfectIdx [9/10, 1/2] [28/100, 1/2] = 1 := by
  refine ⟨?_, ?_, ?_, ?_⟩
  · intro results
    obtain ⟨hbound, hmax, hfirst⟩ :=
      argmaxIdx_spec _ (prProducts_ne_nil (pooledPairs results))
    have hidx : optimalIdxPooled results =
        argmaxIdx (prProducts (pooledPairs results)) := rfl
    constructor
    · intro j hj
      rw [hidx]
      exact Real.sqrt_le_sqrt (by exact_mod_cast hmax j hj)
    · intro j hj
      rw [hidx] at hj ⊢
      have hjlen : j < (prProducts (pooledPairs results)).length := lt_trans hj hbound
      apply Real.sqrt_lt_sqrt
      · rw [List.getD_eq_getElem _ _ hjlen]
        exact_mod_cast prProducts_nonneg (pooledPairs results) j hjlen
      · exact_mod_cast hfirst j hj
  · norm_num [optimalIdx, argmaxIdx, argmaxGo]
  · norm_num [f1ArgmaxIdx, argmaxIdx, argmaxGo]
  · norm_num [closestToPerfectIdx, argminIdx, argmaxIdx, argmaxGo]

/-- Witness for C3 at a concrete input. -/
theorem optimal_point_maximizes_geometric_mean_witness :
    Real.sqrt
      (((prProducts (pooledPairs [("a", exResA), ("b", exResB)])).getD 0 0 : ℝ)) ≤
      Real.sqrt
        (((prProducts (pooledPairs [("a", exResA), ("b", exResB)])).getD
          (optimalIdxPooled [("a", exResA), ("b", exResB)]) 0 : ℝ)) :=
  (optimal_point_maximizes_geometric_mean.1 [("a", exResA), ("b", exResB)]).1 0
    (by decide)

/-- References (Python object ids) of one per-language entry of the input
dict of `show_confusion_matrix`: the `true_labels` and `pred_labels` list
objects. -/
structure LangRefs where
  true_ref : ℕ
  pred_ref : ℕ
deriving DecidableEq

/-- Python heap of label-list objects, as a history of writes: a cell
`(r, v)` binds object id `r` to content `v`, and the most recent binding
wins. -/
abbrev Heap := List (ℕ × List ℤ)

/-- Read the current content of object `r`. -/
def lookupRef (h : Heap) (r : ℕ) : Option (List ℤ) :=
  List.lookup r h

/-- Bind object id `r` to content `v` (both in-place mutation of an existing
object and initialization of a fresh one). -/
def writeRef (h : Heap) (r : ℕ) (v : List ℤ) : Heap :=
  (r, v) :: h

/-- Largest object id ever allocated (0 when the heap is empty). -/
def maxId (h : Heap) : ℕ :=
  (h.map Prod.fst).foldr max 0

/-- A fresh object id, distinct from every allocated one. -/
def freshRef (h : Heap) : ℕ :=
  maxId h + 1

/-- All object ids reachable from the caller's dict. -/
def refsOf (d : List (String × LangRefs)) : List ℕ :=
  d.flatMap fun e => [e.2.true_ref, e.2.pred_ref]

/-- One iteration of the aggregation loop of `show_confusion_matrix`:
`total_labels[TRUE_LABELS].extend(labels[TRUE_LABELS])` and likewise for the
predicted labels — in-place mutation of the two local accumulator objects
`tr` and `pr` only. -/
def extendStep (tr pr : ℕ) (h : Heap) (e : String × LangRefs) : Heap :=
  let h1 := writeRef h tr (((lookupRef h tr).getD []) ++
    ((lookupRef h e.2.true_ref).getD []))
  writeRef h1 pr (((lookupRef h1 pr).getD []) ++
    ((lookupRef h1 e.2.pred_ref).getD []))

/-- One entry of `deepcopy(labels_and_predictions_by_lang)`: fresh objects
are allocated for the entry's two lists and receive copies of their
contents. -/
def deepcopyStep (acc : Heap × List (String × LangRefs)) (e : String × LangRefs) :
    Heap × List (String × LangRefs) :=
  let r1 := freshRef acc.1
  let h1 := writeRef acc.1 r1 ((lookupRef acc.1 e.2.true_ref).getD [])
  let r2 := freshRef h1
  let h2 := writeRef h1 r2 ((lookupRef h1 e.2.pred_ref).getD [])
  (h2, acc.2 ++ [(e.1, ⟨r1, r2⟩)])

/-- Python dict update `{**d, k: v}`: an existing key keeps its position and
gets the new value, a new key is appended. -/
def dictInsert (d : List (String × LangRefs)) (k : String) (v : LangRefs) :
    List (String × LangRefs) :=
  if k ∈ d.map Prod.fst then d.map fun e => if e.1 = k then (k, v) else e
  else d ++ [(k, v)]

/-- Heap-level embedding of `show_confusion_matrix`, step by step:
`total_labels = {TRUE_LABELS: [], PRED_LABELS: []}` allocates two fresh list
objects; the aggregation loop extends only those two objects; the two
assertions only read; `{**deepcopy(...), "all languages": total_labels}`
allocates fresh copies of every per-language list and binds the merged dict
to the local name, never writing to the caller's dict or its lists; the
remaining body only reads (rendering). Returns the final heap and the merged
dict. -/
def show_confusion_matrix_heap (h0 : Heap) (d : List (String × LangRefs)) :
    Heap × List (String × LangRefs) :=
  let tr := freshRef h0
  let h1 := writeRef h0 tr []
  let pr := freshRef h1
  let h2 := writeRef h1 pr []
  let h3 := d.foldl (extendStep tr pr) h2
  let hd := d.foldl deepcopyStep (h3, [])
  (hd.1, dictInsert hd.2 "all languages" ⟨tr, pr⟩)

/-- The heap `h` agrees with `h0` on every object id up to `B`, and has not
reused ids below `B` for fresh allocations. -/
def heapAgreesBelow (B : ℕ) (h0 h : Heap) : Prop :=
  (∀ r, r ≤ B → lookupRef h r = lookupRef h0 r) ∧ B ≤ maxId h

theorem lookupRef_writeRef_ne (h : Heap) (r : ℕ) (v : List ℤ) (r' : ℕ)
    (hne : r' ≠ r) : lookupRef (writeRef h r v) r' = lookupRef h r' := by
  simp only [lookupRef, writeRef, List.lookup]
  rw [show (r' == r) = false from beq_eq_false_iff_ne.mpr hne]

theorem freshRef_gt {B : ℕ} {h0 h : Heap} (hP : heapAgreesBelow B h0 h) :
    B < freshRef h := by
  have := hP.2
  unfold freshRef
  omega

theorem maxId_writeRef (h : Heap) (r : ℕ) (v : List ℤ) :
    maxId (writeRef h r v) = max r (maxId h) := rfl

theorem heapAgreesBelow_refl (B : ℕ) (h0 : Heap) (hB : B ≤ maxId h0) :
    heapAgreesBelow B h0 h0 :=
  ⟨fun _ _ => rfl, hB⟩

theorem heapAgreesBelow_write {B : ℕ} {h0 h : Heap} (hP : heapAgreesBelow B h0 h)
    {r : ℕ} (hr : B < r) (v : List ℤ) : heapAgreesBelow B h0 (writeRef h r v) := by
  refine ⟨fun r' hr' => ?_, ?_⟩
  · rw [lookupRef_writeRef_ne _ _ _ _ (by omega)]
    exact hP.1 r' hr'
  · rw [maxId_writeRef]
    exact le_trans hP.2 (le_max_right _ _)

theorem heapAgreesBelow_extendFold {B : ℕ} {h0 : Heap} {tr pr : ℕ}
    (htr : B < tr) (hpr : B < pr) :
    ∀ (d : List (String × LangRefs)) (h : Heap), heapAgreesBelow B h0 h →
      heapAgreesBelow B h0 (d.foldl (extendStep tr pr) h) := by
  intro d
  induction d with
  | nil => exact fun h hP => hP
  | cons e rest ih =>
    intro h hP
    exact ih _ (heapAgreesBelow_write (heapAgreesBelow_write hP htr _) hpr _)

theorem heapAgreesBelow_deepcopyFold {B : ℕ} {h0 : Heap} :
    ∀ (d : List (String × LangRefs)) (acc : Heap × List (String × LangRefs)),
      heapAgreesBelow B h0 acc.1 →
      (∀ e ∈ acc.2, B < e.2.true_ref ∧ B < e.2.pred_ref) →
      heapAgreesBelow B h0 (d.foldl deepcopyStep acc).1 ∧
      (∀ e ∈ (d.foldl deepcopyStep acc).2, B < e.2.true_ref ∧ B < e.2.pred_ref) := by
  intro d
  induction d with
  | nil => exact fun acc hP hout => ⟨hP, hout⟩
  | cons e rest ih =>
    intro acc hP hout
    have hr1 : B < freshRef acc.1 := freshRef_gt hP
    have hP1 : heapAgreesBelow B h0
        (writeRef acc.1 (freshRef acc.1) ((lookupRef acc.1 e.2.true_ref).getD [])) :=
      heapAgreesBelow_write hP hr1 _
    have hr2 : B < freshRef (writeRef acc.1 (freshRef acc.1)
        ((lookupRef acc.1 e.2.true_ref).getD [])) := freshRef_gt hP1
    have hP2 := heapAgreesBelow_write hP1 hr2
      ((lookupRef (writeRef acc.1 (freshRef acc.1)
        ((lookupRef acc.1 e.2.true_ref).getD [])) e.2.pred_ref).getD [])
    refine ih _ hP2 ?_
    intro e' he'
    simp only [deepcopyStep, List.mem_append, List.mem_singleton] at he'
    rcases he' with he' | rfl
    · exact hout e' he'
    · exact ⟨hr1, hr2⟩

/-- C10: `show_confusion_matrix` leaves the caller's mapping unchanged —
after the call every list object referenced from the input dict has its
original content (so the dict has the same keys and label sequences as
before) — and the merged mapping it builds internally references only fresh
objects, so the pooled entry is added to a fresh copy and no per-language
entry is mutated in place. -/
theorem confusion_matrix_input_unchanged :
    ∀ (h0 : Heap) (d : List (String × LangRefs)),
      (∀ r ∈ refsOf d, r ≤ maxId h0) →
      (∀ r ∈ refsOf d,
        lookupRef (show_confusion_matrix_heap h0 d).1 r = lookupRef h0 r) ∧
      (∀ e ∈ (show_confusion_matrix_heap h0 d).2,
        e.2.true_ref ∉ refsOf d ∧ e.2.pred_ref ∉ refsOf d) := by
  intro h0 d hwf
  have htr : maxId h0 < freshRef h0 := Nat.lt_succ_self _
  have hP1 : heapAgreesBelow (maxId h0) h0 (writeRef h0 (freshRef h0) []) :=
    heapAgreesBelow_write (heapAgreesBelow_refl _ _ le_rfl) htr _
  have hpr : maxId h0 < freshRef (writeRef h0 (freshRef h0) []) :=
    freshRef_gt hP1
  have hP2 : heapAgreesBelow (maxId h0) h0
      (writeRef (writeRef h0 (freshRef h0) []) (freshRef (writeRef h0 (freshRef h0) [])) []) :=
    heapAgreesBelow_write hP1 hpr _
  have hP3 := heapAgreesBelow_extendFold htr hpr d _ hP2
  have hfold := heapAgreesBelow_deepcopyFold d
    (d.foldl (extendStep (freshRef h0) (freshRef (writeRef h0 (freshRef h0) []))) _, [])
    hP3 (by simp)
  constructor
  · intro r hr
    exact hfold.1.1 r (hwf r hr)
  · intro e he
    have hfreshmem : maxId h0 < e.2.true_ref ∧ maxId h0 < e.2.pred_ref := by
      simp only [show_confusion_matrix_heap, dictInsert] at he
      split at he
      · simp only [List.mem_map] at he
        obtain ⟨e', he', rfl⟩ := he
        by_cases hk : e'.1 = "all languages"
        · rw [if_pos hk]
          exact ⟨htr, hpr⟩
        · rw [if_neg hk]
          exact hfold.2 e' he'
      · simp only [List.mem_append, List.mem_singleton] at he
        rcases he with he | rfl
        · exact hfold.2 e he
        · exact ⟨htr, hpr⟩
    constructor
    · intro hmem
      exact absurd (hwf _ hmem) (not_le.mpr hfreshmem.1)
    · intro hmem
      exact absurd (hwf _ hmem) (not_le.mpr hfreshmem.2)

/-- Witness for C10 at a concrete heap and dict. -/
theorem confusion_matrix_input_unchanged_witness :
    (∀ r ∈ refsOf [("en", LangRefs.mk 1 2)],
      lookupRef (show_confusion_matrix_heap [(1, [0]), (2, [1])]
        [("en", LangRefs.mk 1 2)]).1 r =
        lookupRef [(1, [0]), (2, [1])] r) ∧
    (∀ e ∈ (show_confusion_matrix_heap [(1, [0]), (2, [1])]
        [("en", LangRefs.mk 1 2)]).2,
      e.2.true_ref ∉ refsOf [("en", LangRefs.mk 1 2)] ∧
      e.2.pred_ref ∉ refsOf [("en", LangRefs.mk 1 2)]) :=
  confusion_matrix_input_unchanged [(1, [0]), (2, [1])]
    [("en", LangRefs.mk 1 2)] (by decide)

end ToxicityAnalysis
